import Mathlib

/-!
Verification development for the FBGitHubReleasesInfoProvider processor
(src/Mosh/FBGitHubReleasesInfoProvider.py).

The processor is a single linear pipeline: fetch the release list of a
GitHub repository, optionally re-sort it by tag, scan for the first
eligible (release, asset) pair, and derive three output values
(url, version, release_notes) from the winning pair.

Shallow embedding conventions:
- JSON release records become the structure Release. The Python code
  reads the assets field with rel.get("assets") (absent tolerated) but
  reads tag_name, prerelease and body with direct indexing (absent
  raises KeyError). We model the assets field as Option (List Asset)
  and the body field as Option (Option String): the outer Option is
  field presence, the inner one is JSON null.
- The regular-expression match re.match(regex, name) is abstracted as a
  predicate on the asset name; the input asset_regex is
  Option (String -> Bool), where none covers both an absent and an
  empty (falsy) regex input.
- Environment truthiness of include_prereleases and
  sort_by_highest_tag_names is modelled as Bool.
- The external HTTP call is modelled by the ApiResult value handed to
  get_releases; ProcessorError (and the one uncaught KeyError reachable
  in main) become the PErr error type.
-/

structure Asset where
  name : String
  browser_download_url : String
deriving DecidableEq

structure Release where
  tag_name : String
  prerelease : Bool
  assets : Option (List Asset)
  body : Option (Option String)
deriving DecidableEq

structure Env where
  github_repo : String
  asset_regex : Option (String → Bool)
  include_prereleases : Bool
  sort_by_highest_tag_names : Bool

/-- The three output variables of the processor. A field holds none when
the run has not written it, modelling an output environment unchanged
from before the run. -/
structure OutEnv where
  url : Option String
  version : Option String
  release_notes : Option String
deriving DecidableEq

/-- Errors that can end a run: the three ProcessorError cases raised by
get_releases, the ProcessorError raised by select_asset, and the
uncaught KeyError raised by indexing a release record whose body field
is absent. -/
inductive PErr where
  | apiError : PErr
  | unexpectedStatus : Nat → PErr
  | noReleases : PErr
  | noEligibleAsset : PErr
  | keyErrorBody : PErr
deriving DecidableEq

/-- Result of the external GitHub API call made by get_releases: either
the transport layer raised urllib2.HTTPError, or it returned a parsed
release list together with an HTTP status code. -/
inductive ApiResult where
  | httpError : ApiResult
  | ok : List Release → Nat → ApiResult

/-- Embeds get_releases: an HTTPError becomes the API-error
ProcessorError; a status other than 200 becomes the unexpected-status
ProcessorError; a successful but empty list ("if not releases") becomes
the no-releases ProcessorError. -/
def get_releases (repo : String) (api : ApiResult) : Except PErr (List Release) :=
  match api with
  | .httpError => .error .apiError
  | .ok releases status =>
    if status ≠ 200 then .error (.unexpectedStatus status)
    else if releases.isEmpty then .error .noReleases
    else .ok releases

/-- The asset list of a release: rel.get("assets") followed by the
falsy test "if not assets", which treats an absent field and an empty
list the same way. -/
def assetsOf (rel : Release) : List Asset :=
  rel.assets.getD []

/-- The skip test at the top of the scan loop:
rel["prerelease"] and not include_prereleases. -/
def skipRelease (incPre : Bool) (rel : Release) : Bool :=
  rel.prerelease && !incPre

/-- Whether an asset name passes the regex filter; with no regex every
asset passes (the code then takes the first asset unconditionally). -/
def matchesRegex (regex : Option (String → Bool)) (a : Asset) : Bool :=
  match regex with
  | none => true
  | some p => p a.name

/-- Embeds select_asset: scan the releases in order; skip a prerelease
when include_prereleases is falsy; skip a release whose asset list is
absent or empty; otherwise, with no regex the first asset wins, with a
regex the first asset whose name matches wins; when the asset loop
finds nothing the scan moves to the next release. The Python code
raises a ProcessorError when the whole scan finds nothing; we return
none for that case. -/
def select_asset (incPre : Bool) (regex : Option (String → Bool)) :
    List Release → Option (Release × Asset)
  | [] => none
  | rel :: rest =>
    if skipRelease incPre rel then select_asset incPre regex rest
    else if (assetsOf rel).isEmpty then select_asset incPre regex rest
    else
      match regex with
      | none => (assetsOf rel).head?.map (fun a => (rel, a))
      | some p =>
        match (assetsOf rel).find? (fun x => p x.name) with
        | some a => some (rel, a)
        | none => select_asset incPre regex rest

/-- Splits a character list on a separator character, keeping empty
segments, like Python str.split with a one-character separator. -/
def splitOnChar (ch : Char) : List Char → List (List Char)
  | [] => [[]]
  | c :: cs =>
    if c = ch then [] :: splitOnChar ch cs
    else
      match splitOnChar ch cs with
      | [] => [[c]]
      | s :: ss => (c :: s) :: ss

/-- The short repository name: self.env["github_repo"].split('/')[1].
The Python indexing would raise IndexError when the identifier holds no
slash; the claims only exercise well-formed "owner/repo" identifiers,
so the missing-slash case is defaulted to the empty name here. -/
def shortName (repo : String) : List Char :=
  (splitOnChar '/' repo.data).getD 1 []

/-- One left-to-right pass removing the non-overlapping occurrences of
pat, embedding Python tag.replace(pat, ""). The counter k counts
characters of a matched occurrence still to be consumed. An empty pat
removes nothing, as in Python for an empty pattern and an empty
replacement. -/
def removeOccsGo (pat : List Char) : List Char → Nat → List Char
  | [], _ => []
  | _ :: cs, k + 1 => removeOccsGo pat cs k
  | c :: cs, 0 =>
    if !pat.isEmpty && pat.isPrefixOf (c :: cs) then
      removeOccsGo pat cs (pat.length - 1)
    else c :: removeOccsGo pat cs 0

/-- Python tag.replace(pat, ""). -/
def removeOccs (pat s : List Char) : List Char :=
  removeOccsGo pat s 0

/-- Embeds the version derivation in main: if the tag starts with "v"
drop that first character (tag[1:]); otherwise remove the occurrences
of the short repository name (str.replace removes every non-overlapping
occurrence) and strip the leading "-" characters (str.lstrip strips
every leading dash). -/
def derive_version (repo tag : String) : String :=
  if tag.data.head? = some 'v' then String.mk (tag.data.drop 1)
  else String.mk ((removeOccs (shortName repo) tag.data).dropWhile (fun c => c = '-'))

/-- Embeds the release-notes normalisation at the end of main for a
present body field: store the body, then replace a falsy value (JSON
null, or an empty string) with the empty string. -/
def notes_value (b : Option String) : String :=
  match b with
  | none => ""
  | some s => if s.isEmpty then "" else s

/-! ### The loose tag comparison used by the optional sort

The sort step calls the external distutils LooseVersion comparison,
which is not part of this repository. -/

/-- Modelled from the spec: one component of a loosely parsed tag; the
external LooseVersion comparison (not part of this repository) treats
dotted numeric segments as numbers and other segments as strings. -/
inductive VComp where
  | num : Nat → VComp
  | str : List Char → VComp
deriving DecidableEq

/-- Numeric value of a digit run. -/
def natOfDigits (l : List Char) : Nat :=
  l.foldl (fun n c => 10 * n + (c.toNat - '0'.toNat)) 0

/-- Three-way comparison on Nat. -/
def cmpNat (a b : Nat) : Ordering :=
  if a < b then .lt else if b < a then .gt else .eq

/-- Three-way comparison on Char, by code point. -/
def cmpChar (a b : Char) : Ordering :=
  cmpNat a.toNat b.toNat

/-- Lexicographic three-way comparison of lists from a three-way
comparison of elements; a strict prefix sorts lower. -/
def lexCmp (f : α → α → Ordering) : List α → List α → Ordering
  | [], [] => .eq
  | [], _ :: _ => .lt
  | _ :: _, [] => .gt
  | a :: as1, b :: bs =>
    match f a b with
    | .eq => lexCmp f as1 bs
    | o => o

/-- Modelled from the spec: comparison of single components; numeric
components compare numerically, string components lexicographically,
and a numeric component sorts below a string component (the behaviour
of the external comparison utility on mixed components). -/
def cmpVComp : VComp → VComp → Ordering
  | .num a, .num b => cmpNat a b
  | .num _, .str _ => .lt
  | .str _, .num _ => .gt
  | .str a, .str b => lexCmp cmpChar a b

/-- Modelled from the spec: parse a tag into loose components by
splitting on dots; a non-empty all-digit segment becomes a number,
every other segment stays a string. -/
def parseLoose (s : String) : List VComp :=
  (splitOnChar '.' s.data).map
    (fun seg => if !seg.isEmpty && seg.all Char.isDigit then VComp.num (natOfDigits seg) else VComp.str seg)

/-- Modelled from the spec: the loose/lenient three-way comparison of
two tag strings, componentwise with a shorter matching prefix sorting
lower. -/
def looseCmp (a b : String) : Ordering :=
  lexCmp cmpVComp (parseLoose a) (parseLoose b)

/-- The descending order on releases used by the sort step: a release
comes no later than another when its tag does not compare loosely
below the other tag. -/
def descRel (a b : Release) : Prop :=
  looseCmp a.tag_name b.tag_name ≠ Ordering.lt

instance : DecidableRel descRel := fun _ _ => instDecidableNot

/-- Embeds the sort step of main for sort_by_highest_tag_names:
sorted(releases, key=itemgetter("tag_name"), cmp=loose_compare,
reverse=True). Any stable comparison sort is modelled here by insertion
sort with the descending relation; the claims do not observe tie
order. -/
def sortReleases (rels : List Release) : List Release :=
  rels.insertionSort descRel

/-- All pairs the scan loops of select_asset walk over, in scan order:
releases in sequence order, the assets of each release in their own
order. -/
def scanPairs : List Release → List (Release × Asset)
  | [] => []
  | rel :: rest => (assetsOf rel).map (fun a => (rel, a)) ++ scanPairs rest

/-- Eligibility of a (release, asset) pair: the release is not skipped
by the prerelease rule and the asset name passes the regex filter. -/
def eligiblePair (incPre : Bool) (regex : Option (String → Bool))
    (p : Release × Asset) : Bool :=
  !skipRelease incPre p.1 && matchesRegex regex p.2

/-- Eligibility of a release alone, for the no-regex scan: not skipped
by the prerelease rule, and carrying a non-empty asset list. -/
def eligibleRel (incPre : Bool) (rel : Release) : Bool :=
  !skipRelease incPre rel && !(assetsOf rel).isEmpty

/-- Embeds the main method: fetch, optionally sort, select, then write the three
outputs in source order (url, then version, then release_notes). On the
four ProcessorError failures nothing has been written yet; on the
KeyError raised by a body-less release record, url and version have
already been written. -/
def mainRun (env : Env) (api : ApiResult) : OutEnv × Option PErr :=
  match get_releases env.github_repo api with
  | .error e => (⟨none, none, none⟩, some e)
  | .ok releases =>
    let releases := if env.sort_by_highest_tag_names then sortReleases releases else releases
    match select_asset env.include_prereleases env.asset_regex releases with
    | none => (⟨none, none, none⟩, some .noEligibleAsset)
    | some (rel, asset) =>
      let url := asset.browser_download_url
      let version := derive_version env.github_repo rel.tag_name
      match rel.body with
      | none => (⟨some url, some version, none⟩, some .keyErrorBody)
      | some b => (⟨some url, some version, some (notes_value b)⟩, none)

/-- The (release, asset) pair a run selects, when it gets that far. -/
def selectedOf (env : Env) (api : ApiResult) : Option (Release × Asset) :=
  match get_releases env.github_repo api with
  | .error _ => none
  | .ok releases =>
    select_asset env.include_prereleases env.asset_regex
      (if env.sort_by_highest_tag_names then sortReleases releases else releases)

/-- Removes only the first occurrence of pat. Written from the words of
the claim about version derivation, to be compared with the code, which
removes every occurrence. -/
def removeFirstOcc (pat : List Char) : List Char → List Char
  | [] => []
  | c :: cs =>
    if !pat.isEmpty && pat.isPrefixOf (c :: cs) then (c :: cs).drop pat.length
    else c :: removeFirstOcc pat cs

/-- Strips a single leading dash. Written from the words of the claim
about version derivation, to be compared with the code, which strips
every leading dash. -/
def stripOneDash : List Char → List Char
  | '-' :: cs => cs
  | s => s

/-- The version derivation as the claim words it: drop a leading "v",
otherwise remove the first occurrence of the short repository name and
strip a single leading dash. -/
def derive_version_claimed (repo tag : String) : String :=
  if tag.data.head? = some 'v' then String.mk (tag.data.drop 1)
  else String.mk (stripOneDash (removeFirstOcc (shortName repo) tag.data))

/-- The segments of a character list between the non-overlapping
occurrences of pat, scanned left to right with the same skip-counter
scheme as removeOccsGo. An independent formulation of one-pass removal:
flattening the segments is removal of every occurrence. -/
def splitGo (pat : List Char) : List Char → Nat → List (List Char)
  | [], _ => [[]]
  | _ :: cs, k + 1 => splitGo pat cs k
  | c :: cs, 0 =>
    if !pat.isEmpty && pat.isPrefixOf (c :: cs) then
      [] :: splitGo pat cs (pat.length - 1)
    else
      match splitGo pat cs 0 with
      | [] => [[c]]
      | s :: ss => (c :: s) :: ss

/-- The version derivation as the amended claim words it: drop a
leading "v"; otherwise remove every non-overlapping occurrence of the
short repository name, left to right, and strip all leading dashes.
Stated through the independent segment formulation. -/
def derive_version_amended (repo tag : String) : String :=
  if tag.data.head? = some 'v' then String.mk (tag.data.drop 1)
  else String.mk ((splitGo (shortName repo) tag.data 0).flatten.dropWhile (fun c => c = '-'))

/-! ### Helper lemmas about the scan -/

theorem matchesRegex_none : matchesRegex none = fun _ => true := by
  funext a
  rfl

theorem find?_const_false (l : List α) : l.find? (fun _ => false) = none := by
  induction l with
  | nil => rfl
  | cons a t ih => simp [List.find?_cons, ih]

theorem find?_const_true_eq_head? (l : List α) : l.find? (fun _ => true) = l.head? := by
  cases l <;> simp [List.find?_cons]

/-- The pairs contributed by one release, filtered by eligibility,
reduce to the inner asset scan of that release. -/
theorem find?_pairs (incPre : Bool) (regex : Option (String → Bool))
    (rel : Release) (l : List Asset) :
    (l.map (fun a => (rel, a))).find? (eligiblePair incPre regex)
      = if skipRelease incPre rel then none
        else (l.find? (matchesRegex regex)).map (fun a => (rel, a)) := by
  rw [List.find?_map]
  have hcomp : (eligiblePair incPre regex ∘ fun a => (rel, a))
      = fun a => !skipRelease incPre rel && matchesRegex regex a := by
    funext a
    rfl
  rw [hcomp]
  cases hs : skipRelease incPre rel
  · simp
  · simp [find?_const_false]

/-- The scan over an appended release list is the scan of the first
part, falling back to the scan of the second. -/
theorem select_asset_append (incPre : Bool) (regex : Option (String → Bool))
    (l1 l2 : List Release) :
    select_asset incPre regex (l1 ++ l2)
      = (select_asset incPre regex l1).or (select_asset incPre regex l2) := by
  induction l1 with
  | nil => simp [select_asset]
  | cons rel rest ih =>
    simp only [List.cons_append]
    by_cases hs : skipRelease incPre rel
    · simp [select_asset, hs, ih]
    · by_cases he : (assetsOf rel).isEmpty
      · simp [select_asset, hs, he, ih]
      · cases regex with
        | none =>
          have hne : assetsOf rel ≠ [] := by
            simpa [List.isEmpty_iff] using he
          obtain ⟨a, t, hat⟩ := List.exists_cons_of_ne_nil hne
          simp [select_asset, hs, he, hat]
        | some p =>
          cases hf : (assetsOf rel).find? (fun x => p x.name) with
          | none => simp [select_asset, hs, he, hf, ih]
          | some a => simp [select_asset, hs, he, hf]

/-- A release whose effective asset list is empty is skipped. -/
theorem select_asset_noAssets (incPre : Bool) (regex : Option (String → Bool))
    (rel : Release) (h : assetsOf rel = []) (rest : List Release) :
    select_asset incPre regex (rel :: rest) = select_asset incPre regex rest := by
  by_cases hs : skipRelease incPre rel
  · simp [select_asset, hs]
  · cases regex <;> simp [select_asset, hs, h]

/-- Claim C1: select_asset returns exactly the first eligible
(release, asset) pair in scan order, releases scanned in sequence
order and assets scanned in their order within each release, so it
stops at the first match and never returns a later-matching pair; in
particular, whenever the list holds at least one eligible pair under
the given include_prereleases flag and optional name pattern, that
first pair is returned. -/
theorem C1_select_asset_first_match (incPre : Bool)
    (regex : Option (String → Bool)) (rels : List Release) :
    select_asset incPre regex rels
      = (scanPairs rels).find? (eligiblePair incPre regex) := by
  induction rels with
  | nil => rfl
  | cons rel rest ih =>
    rw [scanPairs, List.find?_append, find?_pairs]
    cases hs : skipRelease incPre rel
    · cases he : (assetsOf rel).isEmpty
      · cases regex with
        | none =>
          rw [matchesRegex_none, find?_const_true_eq_head?]
          have hne : assetsOf rel ≠ [] := by
            simpa [List.isEmpty_iff] using he
          obtain ⟨a, t, hat⟩ := List.exists_cons_of_ne_nil hne
          simp [select_asset, hs, he, hat]
        | some p =>
          have hm : matchesRegex (some p) = fun x : Asset => p x.name := by
            funext x
            rfl
          rw [hm]
          cases hf : (assetsOf rel).find? (fun x => p x.name) with
          | none => simp [select_asset, hs, he, hf, ih]
          | some a => simp [select_asset, hs, he, hf]
      · have h0 : assetsOf rel = [] := by
          simpa [List.isEmpty_iff] using he
        simp [select_asset, hs, he, h0, ih]
    · simp [select_asset, hs, ih]

/-- Claim C5: with no asset name pattern, select_asset selects the
first asset of the first eligible release, regardless of asset
names. -/
theorem C5_no_regex_takes_first_asset (incPre : Bool) (rels : List Release) :
    select_asset incPre none rels
      = (rels.find? (eligibleRel incPre)).bind
          (fun rel => (assetsOf rel).head?.map (fun a => (rel, a))) := by
  induction rels with
  | nil => rfl
  | cons rel rest ih =>
    cases hs : skipRelease incPre rel
    · cases he : (assetsOf rel).isEmpty
      · have hel : eligibleRel incPre rel = true := by
          simp [eligibleRel, hs, he]
        simp [select_asset, hs, he, List.find?_cons, hel]
      · have hel : eligibleRel incPre rel = false := by
          simp [eligibleRel, hs, he]
        simp [select_asset, hs, he, List.find?_cons, hel, ih]
    · have hel : eligibleRel incPre rel = false := by
        simp [eligibleRel, hs]
      simp [select_asset, hs, List.find?_cons, hel, ih]

/-- Claim C4: when include_prereleases is falsy, no prerelease release
is ever selected: a selected release always has prerelease = false, and
a prerelease release at the head of the scan is skipped outright,
before its assets are examined. -/
theorem C4_prereleases_excluded (regex : Option (String → Bool))
    (rels : List Release) (rel : Release) (a : Asset) :
    (select_asset false regex rels = some (rel, a) → rel.prerelease = false) ∧
    (rel.prerelease = true →
      select_asset false regex (rel :: rels) = select_asset false regex rels) := by
  constructor
  · induction rels with
    | nil =>
      intro h
      cases h
    | cons r rest ih =>
      intro h
      cases hs : skipRelease false r
      · have hr : r.prerelease = false := by
          simpa [skipRelease] using hs
        cases he : (assetsOf r).isEmpty
        · cases regex with
          | none =>
            have hne : assetsOf r ≠ [] := by
              simpa [List.isEmpty_iff] using he
            obtain ⟨a0, t, hat⟩ := List.exists_cons_of_ne_nil hne
            simp [select_asset, hs, he, hat] at h
            exact h.1 ▸ hr
          | some p =>
            cases hf : (assetsOf r).find? (fun x => p x.name) with
            | none =>
              simp only [select_asset, hs, he, hf, Bool.false_eq_true,
                if_false] at h
              exact ih h
            | some a2 =>
              simp [select_asset, hs, he, hf] at h
              exact h.1 ▸ hr
        · have h0 : assetsOf r = [] := by
            simpa [List.isEmpty_iff] using he
          rw [select_asset_noAssets _ _ _ h0] at h
          exact ih h
      · simp only [select_asset, hs, if_true] at h
        exact ih h
  · intro hp
    have hs : skipRelease false rel = true := by
      simp [skipRelease, hp]
    simp [select_asset, hs]

/-- Witness for claim C4 at concrete inputs: a selected release is not
a prerelease, and a prerelease release at the head is skipped. -/
theorem C4_prereleases_excluded_witness :
    (⟨"v2", false, some [⟨"b.pkg", "u2"⟩], some none⟩ : Release).prerelease = false ∧
    select_asset false none [⟨"v1", true, some [⟨"a.pkg", "u1"⟩], some none⟩]
      = select_asset false none [] := by
  constructor
  · exact (C4_prereleases_excluded none
      [⟨"v2", false, some [⟨"b.pkg", "u2"⟩], some none⟩]
      ⟨"v2", false, some [⟨"b.pkg", "u2"⟩], some none⟩ ⟨"b.pkg", "u2"⟩).1 (by decide)
  · exact (C4_prereleases_excluded none []
      ⟨"v1", true, some [⟨"a.pkg", "u1"⟩], some none⟩ ⟨"a.pkg", "u1"⟩).2 rfl

/-- Claim C10: a release whose assets field is entirely absent behaves
exactly like a release with an empty asset list: wherever it sits in
the input the scan result is unchanged when one replaces the other, the
release is skipped without any lookup error (the scan is total), and so
such releases can only contribute to the final no-eligible-asset
outcome. -/
theorem C10_absent_assets_like_empty (incPre : Bool)
    (regex : Option (String → Bool)) (tag : String) (pre : Bool)
    (body : Option (Option String)) (l1 rest : List Release) :
    (select_asset incPre regex (l1 ++ ⟨tag, pre, none, body⟩ :: rest)
       = select_asset incPre regex (l1 ++ ⟨tag, pre, some [], body⟩ :: rest)) ∧
    (select_asset incPre regex (⟨tag, pre, none, body⟩ :: rest)
       = select_asset incPre regex rest) := by
  have habs : assetsOf ⟨tag, pre, none, body⟩ = [] := rfl
  have hemp : assetsOf ⟨tag, pre, some [], body⟩ = [] := rfl
  constructor
  · rw [select_asset_append, select_asset_append,
      select_asset_noAssets _ _ _ habs, select_asset_noAssets _ _ _ hemp]
  · exact select_asset_noAssets _ _ _ habs rest

/-- Claim C7: a listing call that succeeds with status 200 but returns
zero releases makes get_releases fail with the no-releases error; and
get_releases never hands an empty list to the later stages. -/
theorem C7_empty_releases_fail (repo : String) (api : ApiResult)
    (rels : List Release) :
    (get_releases repo (ApiResult.ok [] 200) = Except.error PErr.noReleases) ∧
    (get_releases repo api = Except.ok rels → rels ≠ []) := by
  constructor
  · rfl
  · intro h hnil
    subst hnil
    cases api with
    | httpError => cases h
    | ok l status =>
      by_cases hstat : status ≠ 200
      · simp [get_releases, hstat] at h
      · cases hemp : l.isEmpty
        · simp [get_releases, hstat, hemp] at h
          simp [h] at hemp
        · simp [get_releases, hstat, hemp] at h

/-- Witness for claim C7: the empty list fails with the no-releases
error, and a concrete successful fetch returns a non-empty list. -/
theorem C7_empty_releases_fail_witness :
    (get_releases "owner/repo" (ApiResult.ok [] 200) = Except.error PErr.noReleases) ∧
    ([(⟨"v1", false, some [], some none⟩ : Release)] ≠ []) := by
  have h := C7_empty_releases_fail "owner/repo"
    (ApiResult.ok [⟨"v1", false, some [], some none⟩] 200)
    [⟨"v1", false, some [], some none⟩]
  exact ⟨h.1, h.2 rfl⟩

/-- Claim C8: for the single-release input with tag "v2.0", prerelease
false and one asset named "tool-2.0.pkg" at url "U1", and no asset
regex, the run succeeds and publishes url "U1" and version "2.0"
(release notes are the empty string for a null body), whatever the
repository identifier and the two boolean inputs. -/
theorem C8_example_run (repo : String) (incPre sortTags : Bool) :
    mainRun ⟨repo, none, incPre, sortTags⟩
        (ApiResult.ok [⟨"v2.0", false, some [⟨"tool-2.0.pkg", "U1"⟩], some none⟩] 200)
      = (⟨some "U1", some "2.0", some ""⟩, none) := by
  cases incPre <;> cases sortTags <;> rfl

/-- Claim C9: on every run that fails with one of the four errors the
processor raises itself (API/transport error, unexpected status, empty
release list, no eligible asset), none of the three output fields is
written: the output environment is unchanged. The only remaining
failure, the KeyError on a record without a body field, is the one case
outside the claim listing. -/
theorem C9_no_partial_outputs (env : Env) (api : ApiResult) (e : PErr)
    (hfail : (mainRun env api).2 = some e) (hnk : e ≠ PErr.keyErrorBody) :
    (mainRun env api).1 = ⟨none, none, none⟩ := by
  cases hg : get_releases env.github_repo api with
  | error e2 => simp [mainRun, hg]
  | ok rels =>
    cases hsel : select_asset env.include_prereleases env.asset_regex
        (if env.sort_by_highest_tag_names then sortReleases rels else rels) with
    | none => simp [mainRun, hg, hsel]
    | some pr =>
      obtain ⟨rel, asset⟩ := pr
      cases hb : rel.body with
      | none =>
        exfalso
        apply hnk
        have hsnd : (mainRun env api).2 = some PErr.keyErrorBody := by
          simp [mainRun, hg, hsel, hb]
        injection hsnd.symm.trans hfail with hkey
        exact hkey.symm
      | some b =>
        exfalso
        have hsnd : (mainRun env api).2 = none := by
          simp [mainRun, hg, hsel, hb]
        rw [hsnd] at hfail
        cases hfail

/-- Witness for claim C9: a concrete empty-list failure leaves all
three outputs unwritten. -/
theorem C9_no_partial_outputs_witness :
    (mainRun ⟨"owner/repo", none, false, false⟩ (ApiResult.ok [] 200)).1
      = ⟨none, none, none⟩ :=
  C9_no_partial_outputs ⟨"owner/repo", none, false, false⟩
    (ApiResult.ok [] 200) PErr.noReleases rfl (by decide)

/-- Counterexample to claim C3: with a selected release whose body
field is entirely absent from the record, the run does not publish the
empty string for release_notes — it stops with a lookup error and the
field stays unwritten. -/
theorem C3_counterexample :
    (mainRun ⟨"owner/proj", none, false, false⟩
        (ApiResult.ok [⟨"v1", false, some [⟨"a.pkg", "u1"⟩], none⟩] 200)).1.release_notes
      ≠ some "" := by
  decide

/-- Claim C3 as amended: on a successful run release_notes is always a
string, never a null-equivalent: when the selected release carries a
body field, the published value is the body text, with JSON null (and
the empty body) replaced by the empty string; when the body field is
entirely absent, the run instead fails with a lookup error and
release_notes stays unwritten. -/
theorem C3_release_notes_amended (env : Env) (api : ApiResult)
    (rel : Release) (asset : Asset)
    (hsel : selectedOf env api = some (rel, asset)) :
    (rel.body = some none → (mainRun env api).1.release_notes = some "") ∧
    (∀ b, rel.body = some b →
      (mainRun env api).1.release_notes = some (notes_value b)) ∧
    (rel.body = none →
      (mainRun env api).1.release_notes = none ∧
      (mainRun env api).2 = some PErr.keyErrorBody) := by
  cases hg : get_releases env.github_repo api with
  | error e2 =>
    simp only [selectedOf, hg] at hsel
    cases hsel
  | ok rels =>
    simp only [selectedOf, hg] at hsel
    refine ⟨?_, ?_, ?_⟩
    · intro hb
      simp [mainRun, hg, hsel, hb, notes_value]
    · intro b hb
      simp [mainRun, hg, hsel, hb]
    · intro hb
      simp [mainRun, hg, hsel, hb]

/-- Witness for the amended claim C3 at a concrete input with a null
body: the empty string is published. -/
theorem C3_release_notes_amended_witness :
    (mainRun ⟨"owner/proj", none, false, false⟩
        (ApiResult.ok [⟨"v1", false, some [⟨"a.pkg", "u1"⟩], some none⟩] 200)).1.release_notes
      = some "" :=
  (C3_release_notes_amended ⟨"owner/proj", none, false, false⟩
    (ApiResult.ok [⟨"v1", false, some [⟨"a.pkg", "u1"⟩], some none⟩] 200)
    ⟨"v1", false, some [⟨"a.pkg", "u1"⟩], some none⟩ ⟨"a.pkg", "u1"⟩
    (by decide)).1 rfl

/-- Counterexample to claim C2: for repository "owner/proj" and the tag
"proj-proj-1.2.3" (no leading "v"), the code removes every occurrence
of "proj" and strips every leading dash, publishing "1.2.3", while the
rule worded in the claim (first occurrence removed, then a single
leading dash stripped) yields "proj-1.2.3". -/
theorem C2_counterexample :
    derive_version "owner/proj" "proj-proj-1.2.3" = "1.2.3" ∧
    derive_version_claimed "owner/proj" "proj-proj-1.2.3" = "proj-1.2.3" ∧
    derive_version "owner/proj" "proj-proj-1.2.3"
      ≠ derive_version_claimed "owner/proj" "proj-proj-1.2.3" := by
  exact ⟨by decide, by decide, by decide⟩

/-- The segment scan never produces an empty segment list. -/
theorem splitGo_ne_nil (pat : List Char) :
    ∀ (s : List Char) (k : Nat), splitGo pat s k ≠ [] := by
  intro s
  induction s with
  | nil =>
    intro k
    simp [splitGo]
  | cons c cs ih =>
    intro k
    cases k with
    | succ k2 => exact ih k2
    | zero =>
      by_cases hp : (!pat.isEmpty && pat.isPrefixOf (c :: cs)) = true
      · simp [splitGo, hp]
      · simp only [splitGo, hp, if_false, Bool.false_eq_true]
        cases hsp : splitGo pat cs 0 <;> simp

/-- One-pass removal agrees with flattening the segments between the
occurrences: the two formulations of tag.replace(pat, "") coincide. -/
theorem removeOccsGo_eq_flatten_splitGo (pat : List Char) :
    ∀ (s : List Char) (k : Nat),
      removeOccsGo pat s k = (splitGo pat s k).flatten := by
  intro s
  induction s with
  | nil =>
    intro k
    rfl
  | cons c cs ih =>
    intro k
    cases k with
    | succ k2 => exact ih k2
    | zero =>
      by_cases hp : (!pat.isEmpty && pat.isPrefixOf (c :: cs)) = true
      · simp only [removeOccsGo, splitGo, hp, if_true, List.flatten_cons,
          List.nil_append]
        exact ih _
      · simp only [removeOccsGo, splitGo, hp, if_false, Bool.false_eq_true]
        cases hsp : splitGo pat cs 0 with
        | nil => exact absurd hsp (splitGo_ne_nil pat cs 0)
        | cons s1 ss =>
          have := ih 0
          rw [hsp] at this
          simp [this, List.flatten_cons]

/-- Claim C2 as amended: the published version is the tag with only the
leading character dropped when the tag starts with "v"; otherwise it is
the tag with every non-overlapping occurrence of the short repository
name removed in one left-to-right pass and all leading "-" characters
stripped — equivalently, the concatenation of the segments between the
occurrences, with leading dashes stripped. The particulars of the claim
hold: tag "v1.2.3" gives "1.2.3", and tag "1.2.3" with repository
"owner/proj" gives "1.2.3", containing no "proj" and not starting
with "-". -/
theorem C2_version_derivation_amended :
    (∀ repo tag : String, derive_version repo tag = derive_version_amended repo tag) ∧
    derive_version "owner/proj" "v1.2.3" = "1.2.3" ∧
    derive_version "owner/proj" "1.2.3" = "1.2.3" := by
  refine ⟨?_, by decide, by decide⟩
  intro repo tag
  simp [derive_version, derive_version_amended, removeOccs,
    removeOccsGo_eq_flatten_splitGo]

/-! ### Lawfulness of the loose comparison, for the sort step -/

theorem cmpNat_eq_iff (a b : Nat) : cmpNat a b = Ordering.eq ↔ a = b := by
  unfold cmpNat
  split
  · simp
    omega
  · split
    · simp
      omega
    · simp
      omega

theorem cmpNat_lt_iff (a b : Nat) : cmpNat a b = Ordering.lt ↔ a < b := by
  unfold cmpNat
  split
  · simp
    omega
  · split
    · simp
      omega
    · simp
      omega

theorem cmpNat_swap (a b : Nat) : cmpNat a b = (cmpNat b a).swap := by
  unfold cmpNat
  rcases Nat.lt_trichotomy a b with h | h | h
  · rw [if_pos h, if_pos h, if_neg (by omega)]
    rfl
  · rw [if_neg (by omega), if_neg (by omega), if_neg (by omega), if_neg (by omega)]
    rfl
  · rw [if_neg (by omega), if_pos h, if_pos h]
    rfl

theorem cmpChar_eq_iff (a b : Char) : cmpChar a b = Ordering.eq ↔ a = b := by
  unfold cmpChar
  rw [cmpNat_eq_iff]
  constructor
  · intro h
    exact Char.ext (UInt32.ext h)
  · intro h
    rw [h]

theorem cmpChar_swap (a b : Char) : cmpChar a b = (cmpChar b a).swap :=
  cmpNat_swap a.toNat b.toNat

theorem cmpChar_lt_trans (a b c : Char) :
    cmpChar a b = Ordering.lt → cmpChar b c = Ordering.lt →
      cmpChar a c = Ordering.lt := by
  unfold cmpChar
  rw [cmpNat_lt_iff, cmpNat_lt_iff, cmpNat_lt_iff]
  omega

theorem lexCmp_eq_iff (f : α → α → Ordering)
    (hfeq : ∀ a b, f a b = Ordering.eq ↔ a = b) :
    ∀ x y, lexCmp f x y = Ordering.eq ↔ x = y := by
  intro x
  induction x with
  | nil =>
    intro y
    cases y <;> simp [lexCmp]
  | cons a as1 ih =>
    intro y
    cases y with
    | nil => simp [lexCmp]
    | cons b bs =>
      cases hab : f a b with
      | lt =>
        simp only [lexCmp, hab, List.cons.injEq]
        constructor
        · intro h
          cases h
        · rintro ⟨rfl, -⟩
          have heq := (hfeq a a).mpr rfl
          rw [heq] at hab
          cases hab
      | gt =>
        simp only [lexCmp, hab, List.cons.injEq]
        constructor
        · intro h
          cases h
        · rintro ⟨rfl, -⟩
          have heq := (hfeq a a).mpr rfl
          rw [heq] at hab
          cases hab
      | eq =>
        have hb : a = b := (hfeq a b).mp hab
        subst hb
        simp [lexCmp, hab, ih bs]

theorem lexCmp_swap (f : α → α → Ordering)
    (hfswap : ∀ a b, f a b = (f b a).swap) :
    ∀ x y, lexCmp f x y = (lexCmp f y x).swap := by
  intro x
  induction x with
  | nil =>
    intro y
    cases y <;> rfl
  | cons a as1 ih =>
    intro y
    cases y with
    | nil => rfl
    | cons b bs =>
      have hab := hfswap a b
      cases hba : f b a with
      | lt =>
        rw [hba] at hab
        simp only [Ordering.swap] at hab
        simp [lexCmp, hab, hba, Ordering.swap]
      | gt =>
        rw [hba] at hab
        simp only [Ordering.swap] at hab
        simp [lexCmp, hab, hba, Ordering.swap]
      | eq =>
        rw [hba] at hab
        simp only [Ordering.swap] at hab
        simp [lexCmp, hab, hba, Ordering.swap, ih bs]

theorem lexCmp_lt_trans (f : α → α → Ordering)
    (hfeq : ∀ a b, f a b = Ordering.eq ↔ a = b)
    (hflt : ∀ a b c, f a b = Ordering.lt → f b c = Ordering.lt →
      f a c = Ordering.lt) :
    ∀ x y z, lexCmp f x y = Ordering.lt → lexCmp f y z = Ordering.lt →
      lexCmp f x z = Ordering.lt := by
  intro x
  induction x with
  | nil =>
    intro y z hxy hyz
    cases z with
    | cons c cs => rfl
    | nil =>
      cases y with
      | nil => exact hxy
      | cons b bs => simp [lexCmp] at hyz
  | cons a as1 ih =>
    intro y z hxy hyz
    cases y with
    | nil => simp [lexCmp] at hxy
    | cons b bs =>
      cases z with
      | nil => simp [lexCmp] at hyz
      | cons c cs =>
        cases hab : f a b with
        | lt =>
          cases hbc : f b c with
          | lt => simp [lexCmp, hflt a b c hab hbc]
          | eq =>
            have hb : b = c := (hfeq b c).mp hbc
            subst hb
            simp [lexCmp, hab]
          | gt => simp [lexCmp, hab, hbc] at hyz
        | eq =>
          have hb : a = b := (hfeq a b).mp hab
          subst hb
          simp only [lexCmp, hab] at hxy
          cases hac : f a c with
          | lt => simp [lexCmp, hac]
          | eq =>
            have hc : a = c := (hfeq a c).mp hac
            subst hc
            simp only [lexCmp, hac] at hyz
            simp [lexCmp, hac, ih bs cs hxy hyz]
          | gt => simp [lexCmp, hac] at hyz
        | gt => simp [lexCmp, hab] at hxy

theorem lexCmp_ge_trans (f : α → α → Ordering)
    (hfeq : ∀ a b, f a b = Ordering.eq ↔ a = b)
    (hfswap : ∀ a b, f a b = (f b a).swap)
    (hflt : ∀ a b c, f a b = Ordering.lt → f b c = Ordering.lt →
      f a c = Ordering.lt)
    (x y z : List α)
    (hxy : lexCmp f x y ≠ Ordering.lt) (hyz : lexCmp f y z ≠ Ordering.lt) :
    lexCmp f x z ≠ Ordering.lt := by
  intro hxz
  cases hxy2 : lexCmp f x y with
  | lt => exact hxy hxy2
  | eq =>
    have h := (lexCmp_eq_iff f hfeq x y).mp hxy2
    subst h
    exact hyz hxz
  | gt =>
    cases hyz2 : lexCmp f y z with
    | lt => exact hyz hyz2
    | eq =>
      have h := (lexCmp_eq_iff f hfeq y z).mp hyz2
      subst h
      rw [hxy2] at hxz
      cases hxz
    | gt =>
      have hzy : lexCmp f z y = Ordering.lt := by
        rw [lexCmp_swap f hfswap z y, hyz2]
        rfl
      have hyx : lexCmp f y x = Ordering.lt := by
        rw [lexCmp_swap f hfswap y x, hxy2]
        rfl
      have hzx := lexCmp_lt_trans f hfeq hflt z y x hzy hyx
      have hgt : lexCmp f x z = Ordering.gt := by
        rw [lexCmp_swap f hfswap x z, hzx]
        rfl
      rw [hgt] at hxz
      cases hxz

theorem lexCmp_ge_total (f : α → α → Ordering)
    (hfswap : ∀ a b, f a b = (f b a).swap) (x y : List α) :
    lexCmp f x y ≠ Ordering.lt ∨ lexCmp f y x ≠ Ordering.lt := by
  cases h : lexCmp f x y with
  | lt =>
    right
    intro h2
    rw [lexCmp_swap f hfswap x y, h2] at h
    cases h
  | eq =>
    left
    simp [h]
  | gt =>
    left
    simp [h]

theorem cmpVComp_eq_iff (a b : VComp) : cmpVComp a b = Ordering.eq ↔ a = b := by
  cases a with
  | num m =>
    cases b with
    | num n => simpa [cmpVComp] using cmpNat_eq_iff m n
    | str t => simp [cmpVComp]
  | str s =>
    cases b with
    | num n => simp [cmpVComp]
    | str t => simpa [cmpVComp] using lexCmp_eq_iff cmpChar cmpChar_eq_iff s t

theorem cmpVComp_swap (a b : VComp) : cmpVComp a b = (cmpVComp b a).swap := by
  cases a with
  | num m =>
    cases b with
    | num n => exact cmpNat_swap m n
    | str t => rfl
  | str s =>
    cases b with
    | num n => rfl
    | str t => exact lexCmp_swap cmpChar cmpChar_swap s t

theorem cmpVComp_lt_trans (a b c : VComp) :
    cmpVComp a b = Ordering.lt → cmpVComp b c = Ordering.lt →
      cmpVComp a c = Ordering.lt := by
  intro h1 h2
  cases a with
  | num ma =>
    cases c with
    | str tc => rfl
    | num mc =>
      cases b with
      | str tb => simp [cmpVComp] at h2
      | num mb =>
        simp only [cmpVComp, cmpNat_lt_iff] at h1 h2 ⊢
        omega
  | str sa =>
    cases b with
    | num mb => simp [cmpVComp] at h1
    | str sb =>
      cases c with
      | num mc => simp [cmpVComp] at h2
      | str sc =>
        simp only [cmpVComp] at h1 h2 ⊢
        exact lexCmp_lt_trans cmpChar cmpChar_eq_iff cmpChar_lt_trans sa sb sc h1 h2

instance : IsTrans Release descRel where
  trans := by
    intro a b c hab hbc
    unfold descRel looseCmp at *
    exact lexCmp_ge_trans cmpVComp cmpVComp_eq_iff cmpVComp_swap
      cmpVComp_lt_trans _ _ _ hab hbc

instance : IsTotal Release descRel where
  total := by
    intro a b
    unfold descRel looseCmp
    exact lexCmp_ge_total cmpVComp cmpVComp_swap _ _

/-- Claim C6: the sort step applied when sort_by_highest_tag_names is
set returns a permutation of the fetched releases (no release added,
removed, or mutated), sorted descending by the numeric-aware loose
comparison of tag strings; in particular releases tagged "1.9.0",
"1.10.0", "1.2.0" are reordered to ["1.10.0", "1.9.0", "1.2.0"]. -/
theorem C6_sort_step (rels : List Release) :
    (sortReleases rels).Perm rels ∧
    List.Sorted descRel (sortReleases rels) ∧
    (sortReleases
        [⟨"1.9.0", false, some [], some none⟩,
         ⟨"1.10.0", false, some [], some none⟩,
         ⟨"1.2.0", false, some [], some none⟩]).map Release.tag_name
      = ["1.10.0", "1.9.0", "1.2.0"] :=
  ⟨List.perm_insertionSort descRel rels,
   List.sorted_insertionSort descRel rels,
   by decide⟩
